import Mathlib

/-!
Verification of the superstatic `files` middleware (the path-resolution engine,
`src/lib/middleware/files.js`) against its natural-language specification.

JavaScript strings are modelled as lists of characters (`Str`).  The engine is
embedded as a pure function of the configuration, an existence function
(the Content Existence Provider), and the request's `url` / `originalUrl`
strings; it returns the `Decision` together with the ordered list of paths
queried on the provider.  A second embedding (`resolveCoreE`) models a
provider whose calls may fail, to capture error propagation.
-/

namespace Superstatic

/-- JavaScript strings are modelled as lists of characters. -/
abbrev Str := List Char

/-- The string `".html"`. -/
def htmlExt : Str := ".html".data

/-- The string `"index.html"`. -/
def indexHtmlStr : Str := "index.html".data

/-- The string `"/index"`. -/
def slashIndexStr : Str := "/index".data

/-- The string `"/index.html"`. -/
def slashIndexHtmlStr : Str := "/index.html".data

/-- The string `"/"`. -/
def slashStr : Str := "/".data

/-- Modelled from the spec: lodash `_.endsWith(s, suffix)` — whether `suffix`
is a suffix of `s` (the lodash dependency is not under `src/`). -/
def endsWith (s suffix : Str) : Bool := decide (suffix <:+ s)

/-- Modelled from the spec: `pathutils.removeTrailingString(s, rm)`
(`lib/utils/pathutils.js` is not under `src/`): §9 "stripSuffix" — if `s`
ends with `rm`, drop that suffix, otherwise return `s` unchanged. -/
def removeTrailingString (s rm : Str) : Str :=
  if endsWith s rm then s.take (s.length - rm.length) else s

/-- Modelled from the spec: `pathutils.hasTrailingSlash` — whether the path
ends in `/` (spec §3 `hasTrailingSlash`). -/
def hasTrailingSlash (s : Str) : Bool := endsWith s slashStr

/-- Modelled from the spec: `pathutils.addTrailingSlash` — append a `/`
unless one is already present (spec §4.2 "append a trailing slash"). -/
def addTrailingSlash (s : Str) : Str :=
  if hasTrailingSlash s then s else s ++ slashStr

/-- Modelled from the spec: `pathutils.removeTrailingSlash` — remove the
trailing `/` if present (spec §9 `removeTrailingSlash`). -/
def removeTrailingSlash (s : Str) : Str := removeTrailingString s slashStr

/-- Modelled from the spec: `pathutils.asDirectoryIndex` — join the path with
`index.html`, "ensuring exactly one slash is inserted before `index.html`"
(spec §4.2 step 2). -/
def asDirectoryIndex (s : Str) : Str := addTrailingSlash s ++ indexHtmlStr

/-- Collapse every run of two or more consecutive `/` into a single `/`
(character-list worker for `normalizeMultiSlashes`). -/
def collapseSlashes : List Char → List Char
  | [] => []
  | [c] => [c]
  | a :: b :: rest =>
    if a = '/' ∧ b = '/' then collapseSlashes (b :: rest)
    else a :: collapseSlashes (b :: rest)

/-- Modelled from the spec: `pathutils.normalizeMultiSlashes` — spec §4.1
"collapses any run of two or more consecutive `/` characters into a single
`/`". -/
def normalizeMultiSlashes (s : Str) : Str := collapseSlashes s

/-- `normalizeRedirectPath` from `src/lib/middleware/files.js`:
"We cannot redirect to `\"\"`, redirect to `\"/\"` instead" (`path || "/"`). -/
def normalizeRedirectPath (path : Str) : Str :=
  if path = [] then slashStr else path

/-- Modelled from the spec: the pathname part of `url.parse` — spec §4.1
"splits on the first `?`; everything before is `pathname`". -/
def pathnameOf (u : Str) : Str := u.takeWhile (· ≠ '?')

/-- Modelled from the spec: the search part of `url.parse` — spec §4.1
"everything from `?` onward (inclusive) is `search`, or empty if none"
(`parsedUrl.search || ""`). -/
def searchOf (u : Str) : Str := u.dropWhile (· ≠ '?')

/-- The `trailingSlash` configuration: JS `undefined` / `false` / `true`
(spec §3: `Unspecified`, `ForceAbsent`, `ForcePresent`). -/
inductive TrailingSlash where
  | unspecified
  | forceAbsent
  | forcePresent
deriving DecidableEq, Repr

/-- The engine configuration (spec §3): `req.superstatic.trailingSlash` and
`req.superstatic.cleanUrls`. -/
structure Config where
  trailingSlash : TrailingSlash
  cleanUrls : Bool
deriving DecidableEq, Repr

/-- The engine's output (spec §3 `Decision`): `handleFileStream` ↦
`serveFile`, `handle {redirect}` ↦ `redirect`, `next()` ↦ `defer`. -/
inductive Decision (δ : Type) where
  | serveFile (path : Str) (descriptor : δ)
  | redirect (location : Str)
  | defer
deriving DecidableEq, Repr

/-- The clean-URL candidate path computed in step 3 of
`src/lib/middleware/files.js` (lines 110-125): keyed on
`hasTrailingSlash(originalPathname)`; with a trailing slash and a specified
`trailingSlash` policy the slash is removed and `.html` appended; without a
trailing slash `.html` is appended; with a trailing slash under the
`Unspecified` policy the path is left unchanged. -/
def cleanUrlCandidateOf (cfg : Config) (path originalPathname : Str) : Str :=
  if hasTrailingSlash originalPathname then
    if cfg.trailingSlash ≠ TrailingSlash.unspecified then
      removeTrailingString path slashStr ++ htmlExt
    else path
  else path ++ htmlExt

/-- The resolution algorithm of `src/lib/middleware/files.js` (lines 33-188),
transcribed over an already-parsed request: `pathname` and
`originalPathname` are the multi-slash-normalized pathnames of `req.url`
and `req.originalUrl`, `search` the query string.  Returns the `Decision`
together with the ordered list of paths passed to the existence provider. -/
def resolveCore {δ : Type} (cfg : Config) (ex : Str → Option δ)
    (pathname search originalPathname : Str) : Decision δ × List Str :=
  match ex pathname with
  | some result =>
    -- Exact file always wins; under cleanUrls a trailing `.html` redirects.
    if cfg.cleanUrls = true ∧ endsWith originalPathname htmlExt = true then
      let redirPath0 := removeTrailingString originalPathname htmlExt
      let redirPath1 :=
        if endsWith redirPath0 slashIndexStr = true then
          removeTrailingString redirPath0 slashIndexStr
        else redirPath0
      let redirPath2 :=
        if cfg.trailingSlash = TrailingSlash.forcePresent then
          addTrailingSlash redirPath1
        else redirPath1
      (Decision.redirect (normalizeRedirectPath (redirPath2 ++ search)), [pathname])
    else
      (Decision.serveFile pathname result, [pathname])
  | none =>
    let pathAsDirectoryWithIndex := asDirectoryIndex (addTrailingSlash pathname)
    match ex pathAsDirectoryWithIndex with
    | some dirResult =>
      if cfg.trailingSlash = TrailingSlash.unspecified
          ∧ hasTrailingSlash originalPathname = false ∧ cfg.cleanUrls = false then
        (Decision.redirect (addTrailingSlash originalPathname ++ search),
         [pathname, pathAsDirectoryWithIndex])
      else if cfg.trailingSlash = TrailingSlash.forceAbsent
          ∧ hasTrailingSlash originalPathname = true ∧ pathname ≠ slashStr then
        -- "No infinite redirects" root guard.
        (Decision.redirect
          (normalizeRedirectPath (removeTrailingSlash originalPathname ++ search)),
         [pathname, pathAsDirectoryWithIndex])
      else if cfg.trailingSlash = TrailingSlash.forcePresent
          ∧ hasTrailingSlash originalPathname = false then
        (Decision.redirect (addTrailingSlash originalPathname ++ search),
         [pathname, pathAsDirectoryWithIndex])
      else
        (Decision.serveFile pathAsDirectoryWithIndex dirResult,
         [pathname, pathAsDirectoryWithIndex])
    | none =>
      if cfg.cleanUrls = true then
        let appendedPath := cleanUrlCandidateOf cfg pathname originalPathname
        let appendedOriginalPath :=
          cleanUrlCandidateOf cfg originalPathname originalPathname
        match ex appendedPath with
        | some appendedResult =>
          if cfg.trailingSlash = TrailingSlash.forceAbsent
              ∧ hasTrailingSlash originalPathname = true then
            (Decision.redirect
              (normalizeRedirectPath (removeTrailingSlash originalPathname ++ search)),
             [pathname, pathAsDirectoryWithIndex, appendedPath])
          else if cfg.trailingSlash = TrailingSlash.forcePresent
              ∧ hasTrailingSlash originalPathname = false then
            (Decision.redirect
              (addTrailingSlash
                (removeTrailingString
                  (removeTrailingString appendedOriginalPath htmlExt) slashIndexStr)
                ++ search),
             [pathname, pathAsDirectoryWithIndex, appendedPath])
          else if endsWith appendedOriginalPath slashIndexHtmlStr = true then
            (Decision.redirect
              (normalizeRedirectPath
                (removeTrailingString appendedOriginalPath slashIndexHtmlStr ++ search)),
             [pathname, pathAsDirectoryWithIndex, appendedPath])
          else
            (Decision.serveFile appendedPath appendedResult,
             [pathname, pathAsDirectoryWithIndex, appendedPath])
        | none =>
          (Decision.defer, [pathname, pathAsDirectoryWithIndex, appendedPath])
      else
        (Decision.defer, [pathname, pathAsDirectoryWithIndex])

/-- The multi-slash-normalized pathname of a raw URL (`files.js` lines
22-29: `pathutils.normalizeMultiSlashes(url.parse(raw).pathname)`). -/
def normPath (u : Str) : Str := normalizeMultiSlashes (pathnameOf u)

/-- The full middleware on raw `req.url` / `req.originalUrl` strings,
returning the decision and the provider-query trace. -/
def resolveT {δ : Type} (cfg : Config) (ex : Str → Option δ)
    (url originalUrl : Str) : Decision δ × List Str :=
  resolveCore cfg ex (normPath url) (searchOf url) (normPath originalUrl)

/-- The decision of the middleware for a request. -/
def resolve {δ : Type} (cfg : Config) (ex : Str → Option δ)
    (url originalUrl : Str) : Decision δ :=
  (resolveT cfg ex url originalUrl).1

/-- The resolution algorithm with a fallible existence provider: each
provider call either yields `Option δ` or fails with a provider error `ε`;
a failure aborts resolution and is propagated unchanged (`files.js` lines
190-193, the terminal `.catch`). -/
def resolveCoreE {δ ε : Type} (cfg : Config) (ex : Str → Except ε (Option δ))
    (pathname search originalPathname : Str) : Except ε (Decision δ) :=
  match ex pathname with
  | Except.error e => Except.error e
  | Except.ok (some result) =>
    if cfg.cleanUrls = true ∧ endsWith originalPathname htmlExt = true then
      let redirPath0 := removeTrailingString originalPathname htmlExt
      let redirPath1 :=
        if endsWith redirPath0 slashIndexStr = true then
          removeTrailingString redirPath0 slashIndexStr
        else redirPath0
      let redirPath2 :=
        if cfg.trailingSlash = TrailingSlash.forcePresent then
          addTrailingSlash redirPath1
        else redirPath1
      Except.ok (Decision.redirect (normalizeRedirectPath (redirPath2 ++ search)))
    else
      Except.ok (Decision.serveFile pathname result)
  | Except.ok none =>
    let pathAsDirectoryWithIndex := asDirectoryIndex (addTrailingSlash pathname)
    match ex pathAsDirectoryWithIndex with
    | Except.error e => Except.error e
    | Except.ok (some dirResult) =>
      if cfg.trailingSlash = TrailingSlash.unspecified
          ∧ hasTrailingSlash originalPathname = false ∧ cfg.cleanUrls = false then
        Except.ok (Decision.redirect (addTrailingSlash originalPathname ++ search))
      else if cfg.trailingSlash = TrailingSlash.forceAbsent
          ∧ hasTrailingSlash originalPathname = true ∧ pathname ≠ slashStr then
        Except.ok (Decision.redirect
          (normalizeRedirectPath (removeTrailingSlash originalPathname ++ search)))
      else if cfg.trailingSlash = TrailingSlash.forcePresent
          ∧ hasTrailingSlash originalPathname = false then
        Except.ok (Decision.redirect (addTrailingSlash originalPathname ++ search))
      else
        Except.ok (Decision.serveFile pathAsDirectoryWithIndex dirResult)
    | Except.ok none =>
      if cfg.cleanUrls = true then
        let appendedPath := cleanUrlCandidateOf cfg pathname originalPathname
        let appendedOriginalPath :=
          cleanUrlCandidateOf cfg originalPathname originalPathname
        match ex appendedPath with
        | Except.error e => Except.error e
        | Except.ok (some appendedResult) =>
          if cfg.trailingSlash = TrailingSlash.forceAbsent
              ∧ hasTrailingSlash originalPathname = true then
            Except.ok (Decision.redirect
              (normalizeRedirectPath (removeTrailingSlash originalPathname ++ search)))
          else if cfg.trailingSlash = TrailingSlash.forcePresent
              ∧ hasTrailingSlash originalPathname = false then
            Except.ok (Decision.redirect
              (addTrailingSlash
                (removeTrailingString
                  (removeTrailingString appendedOriginalPath htmlExt) slashIndexStr)
                ++ search))
          else if endsWith appendedOriginalPath slashIndexHtmlStr = true then
            Except.ok (Decision.redirect
              (normalizeRedirectPath
                (removeTrailingString appendedOriginalPath slashIndexHtmlStr ++ search)))
          else
            Except.ok (Decision.serveFile appendedPath appendedResult)
        | Except.ok none => Except.ok Decision.defer
      else
        Except.ok Decision.defer

/-- The fallible-provider middleware on raw URL strings. -/
def resolveE {δ ε : Type} (cfg : Config) (ex : Str → Except ε (Option δ))
    (url originalUrl : Str) : Except ε (Decision δ) :=
  resolveCoreE cfg ex (normPath url) (searchOf url) (normPath originalUrl)

/-! ### Basic facts about the string helpers -/

theorem endsWith_eq_true_iff {s r : Str} : endsWith s r = true ↔ r <:+ s := by
  simp [endsWith]

theorem endsWith_append (x r : Str) : endsWith (x ++ r) r = true :=
  endsWith_eq_true_iff.2 ⟨x, rfl⟩

theorem slashStr_eq : slashStr = ['/'] := rfl

theorem removeTrailingString_append (x r : Str) :
    removeTrailingString (x ++ r) r = x := by
  rw [removeTrailingString, if_pos (endsWith_append x r)]
  rw [List.length_append, Nat.add_sub_cancel]
  exact List.take_left x r

theorem removeTrailingString_of_endsWith_false {s r : Str}
    (h : endsWith s r = false) : removeTrailingString s r = s := by
  rw [removeTrailingString, if_neg]
  simp [h]

theorem hasTrailingSlash_iff {s : Str} :
    hasTrailingSlash s = true ↔ ∃ q, q ++ ['/'] = s := by
  rw [hasTrailingSlash, endsWith_eq_true_iff, slashStr_eq]
  exact Iff.rfl

theorem hasTrailingSlash_append_slash (x : Str) :
    hasTrailingSlash (x ++ ['/']) = true :=
  hasTrailingSlash_iff.2 ⟨x, rfl⟩

theorem addTrailingSlash_of_true {s : Str} (h : hasTrailingSlash s = true) :
    addTrailingSlash s = s := by
  rw [addTrailingSlash, if_pos h]

theorem addTrailingSlash_of_false {s : Str} (h : hasTrailingSlash s = false) :
    addTrailingSlash s = s ++ ['/'] := by
  rw [addTrailingSlash, if_neg (by simp [h]), slashStr_eq]

theorem hasTrailingSlash_addTrailingSlash (s : Str) :
    hasTrailingSlash (addTrailingSlash s) = true := by
  by_cases h : hasTrailingSlash s = true
  · rw [addTrailingSlash_of_true h]; exact h
  · rw [addTrailingSlash_of_false (by simpa using h)]
    exact hasTrailingSlash_append_slash s

theorem addTrailingSlash_idem (s : Str) :
    addTrailingSlash (addTrailingSlash s) = addTrailingSlash s :=
  addTrailingSlash_of_true (hasTrailingSlash_addTrailingSlash s)

theorem addTrailingSlash_ne_nil (s : Str) : addTrailingSlash s ≠ [] := by
  by_cases h : hasTrailingSlash s = true
  · rw [addTrailingSlash_of_true h]
    rintro rfl
    simp [hasTrailingSlash, endsWith, slashStr, List.IsSuffix] at h
  · rw [addTrailingSlash_of_false (by simpa using h)]
    simp

theorem removeTrailingSlash_append_slash (q : Str) :
    removeTrailingSlash (q ++ ['/']) = q := by
  rw [removeTrailingSlash, slashStr_eq]
  exact removeTrailingString_append q ['/']

/-! ### Multi-slash normalization -/

/-- A path with no two consecutive slashes: the image of
`normalizeMultiSlashes`. -/
def Normed (l : Str) : Prop := l.Chain' (fun a b => ¬(a = '/' ∧ b = '/'))

theorem head?_collapseSlashes : ∀ (a : Char) (l : List Char),
    (collapseSlashes (a :: l)).head? = some a := by
  intro a l
  induction l generalizing a with
  | nil => rfl
  | cons b rest ih =>
    rw [collapseSlashes]
    split
    · next h => rw [ih b, h.1, h.2]
    · rfl

theorem normed_collapseSlashes : ∀ l : List Char, Normed (collapseSlashes l) := by
  intro l
  induction l with
  | nil => exact List.chain'_nil
  | cons a tl ih =>
    cases tl with
    | nil => exact List.chain'_singleton a
    | cons b rest =>
      rw [collapseSlashes]
      split
      · exact ih
      · next h =>
        have hh := head?_collapseSlashes b rest
        cases hc : collapseSlashes (b :: rest) with
        | nil => simp [hc] at hh
        | cons c t =>
          rw [hc] at hh
          simp at hh
          subst hh
          rw [hc] at ih
          exact List.chain'_cons.2 ⟨h, ih⟩

theorem collapseSlashes_eq_self : ∀ {l : List Char}, Normed l → collapseSlashes l = l := by
  intro l
  induction l with
  | nil => intro _; rfl
  | cons a tl ih =>
    cases tl with
    | nil => intro _; rfl
    | cons b rest =>
      intro h
      have h' := List.chain'_cons.1 h
      rw [collapseSlashes, if_neg h'.1, ih h'.2]

theorem collapseSlashes_idem (l : List Char) :
    collapseSlashes (collapseSlashes l) = collapseSlashes l :=
  collapseSlashes_eq_self (normed_collapseSlashes l)

theorem collapseSlashes_sublist : ∀ l : List Char, List.Sublist (collapseSlashes l) l := by
  intro l
  induction l with
  | nil => exact List.Sublist.refl []
  | cons a tl ih =>
    cases tl with
    | nil => exact List.Sublist.refl [a]
    | cons b rest =>
      rw [collapseSlashes]
      split
      · exact List.Sublist.cons a ih
      · exact List.Sublist.cons₂ a ih

theorem normed_normPath (u : Str) : Normed (normPath u) :=
  normed_collapseSlashes (pathnameOf u)

theorem normed_append_right {x y : Str} (h : Normed (x ++ y)) : Normed y :=
  (List.chain'_append.1 h).2.1

theorem normed_append_left {x y : Str} (h : Normed (x ++ y)) : Normed x :=
  (List.chain'_append.1 h).1

theorem getLast?_ne_slash_of_not_trailing {l : Str}
    (h : hasTrailingSlash l = false) : l.getLast? ≠ some '/' := by
  intro hc
  obtain ⟨q, rfl⟩ := List.getLast?_eq_some_iff.1 hc
  rw [hasTrailingSlash_append_slash] at h
  cases h

theorem normed_append_slash {l : Str} (hn : Normed l)
    (h : hasTrailingSlash l = false) : Normed (l ++ ['/']) := by
  refine List.chain'_append.2 ⟨hn, List.chain'_singleton '/', ?_⟩
  intro x hx y hy
  simp at hy
  subst hy
  rintro ⟨hx', -⟩
  subst hx'
  exact getLast?_ne_slash_of_not_trailing h hx

theorem not_hasTrailingSlash_of_normed_snoc {q : Str}
    (h : Normed (q ++ ['/'])) : hasTrailingSlash q = false := by
  by_contra hc
  have hq : hasTrailingSlash q = true := by
    cases hq' : hasTrailingSlash q
    · exact absurd hq' hc
    · rfl
  obtain ⟨r, rfl⟩ := hasTrailingSlash_iff.1 hq
  have h2 : Normed (['/'] ++ ['/']) := by
    have := normed_append_right (x := r) (y := ['/'] ++ ['/'])
      (by rwa [List.append_assoc] at h)
    exact this
  have h3 := List.chain'_cons.1 h2
  exact h3.1 ⟨rfl, rfl⟩

/-! ### URL parsing facts -/

theorem mem_pathnameOf_ne_qmark {c : Char} {u : Str} (h : c ∈ pathnameOf u) :
    c ≠ '?' := by
  have := List.mem_takeWhile_imp h
  simpa using this

theorem mem_normPath_ne_qmark {c : Char} {u : Str} (h : c ∈ normPath u) :
    c ≠ '?' :=
  mem_pathnameOf_ne_qmark ((collapseSlashes_sublist (pathnameOf u)).subset h)

theorem searchOf_shape (u : Str) : searchOf u = [] ∨ ∃ r, searchOf u = '?' :: r := by
  induction u with
  | nil => exact Or.inl rfl
  | cons a u' ih =>
    by_cases ha : a = '?'
    · subst ha
      exact Or.inr ⟨u', by simp [searchOf]⟩
    · rw [searchOf, List.dropWhile_cons, if_pos (by simpa using ha)]
      exact ih

theorem pathnameOf_append {x s : Str} (hx : ∀ c ∈ x, c ≠ '?')
    (hs : s = [] ∨ ∃ r, s = '?' :: r) : pathnameOf (x ++ s) = x := by
  induction x with
  | nil =>
    rcases hs with rfl | ⟨r, rfl⟩
    · rfl
    · simp [pathnameOf]
  | cons a x' ih =>
    have ha : a ≠ '?' := hx a (by simp)
    rw [List.cons_append, pathnameOf, List.takeWhile_cons, if_pos (by simpa using ha)]
    have := ih (fun c hc => hx c (by simp [hc]))
    rw [pathnameOf] at this
    rw [this]

theorem searchOf_append {x s : Str} (hx : ∀ c ∈ x, c ≠ '?')
    (hs : s = [] ∨ ∃ r, s = '?' :: r) : searchOf (x ++ s) = s := by
  induction x with
  | nil =>
    rcases hs with rfl | ⟨r, rfl⟩
    · rfl
    · simp [searchOf]
  | cons a x' ih =>
    have ha : a ≠ '?' := hx a (by simp)
    rw [List.cons_append, searchOf, List.dropWhile_cons, if_pos (by simpa using ha)]
    exact ih (fun c hc => hx c (by simp [hc]))

theorem pathnameOf_eq_self {x : Str} (hx : ∀ c ∈ x, c ≠ '?') :
    pathnameOf x = x := by
  have := pathnameOf_append (s := []) hx (Or.inl rfl)
  simpa using this

theorem searchOf_eq_nil {x : Str} (hx : ∀ c ∈ x, c ≠ '?') : searchOf x = [] := by
  have := searchOf_append (s := []) hx (Or.inl rfl)
  simpa using this

theorem normPath_of_no_qmark_normed {x : Str} (hx : ∀ c ∈ x, c ≠ '?')
    (hn : Normed x) : normPath x = x := by
  rw [normPath, pathnameOf_eq_self hx, normalizeMultiSlashes, collapseSlashes_eq_self hn]

/-- Decompose a normalized path ending in a slash as `q ++ "/"` where `q`
itself has no trailing slash. -/
theorem normed_decomp_trailing {p : Str} (hn : Normed p)
    (h : hasTrailingSlash p = true) :
    ∃ q, q ++ ['/'] = p ∧ hasTrailingSlash q = false := by
  obtain ⟨q, rfl⟩ := hasTrailingSlash_iff.1 h
  exact ⟨q, rfl, not_hasTrailingSlash_of_normed_snoc hn⟩

/-- The redirect target of step 1 (`files.js` lines 41-53): strip the
trailing `.html`, then a trailing `/index` if present, then append a
trailing slash exactly when `trailingSlash` is `ForcePresent`; the location
is this plus the search string, an empty result normalized to `/`. -/
def step1RedirectTarget (cfg : Config) (originalPathname search : Str) : Str :=
  let redirPath0 := removeTrailingString originalPathname htmlExt
  let redirPath1 :=
    if endsWith redirPath0 slashIndexStr = true then
      removeTrailingString redirPath0 slashIndexStr
    else redirPath0
  let redirPath2 :=
    if cfg.trailingSlash = TrailingSlash.forcePresent then addTrailingSlash redirPath1
    else redirPath1
  normalizeRedirectPath (redirPath2 ++ search)

/-! ### Claim theorems -/

/-- C2: Exact-match precedence — if the existence function returns a
descriptor for the normalized path, and it is not the case that `cleanUrls`
is enabled and the slash-collapsed original path ends in `.html`, the
decision is `ServeFile(normalizedPath, descriptor)`, regardless of any
directory-index or clean-URL sibling (the existence function is otherwise
arbitrary). -/
theorem exact_match_precedence {δ : Type} (cfg : Config) (ex : Str → Option δ)
    (u ou : Str) (d : δ)
    (h1 : ex (normPath u) = some d)
    (h2 : ¬(cfg.cleanUrls = true ∧ endsWith (normPath ou) htmlExt = true)) :
    resolve cfg ex u ou = Decision.serveFile (normPath u) d := by
  unfold resolve resolveT resolveCore
  rw [h1]
  simp only [if_neg h2]

/-- Witness for C2 at a concrete input: configuration
`trailingSlash = Unspecified, cleanUrls = false`, content everywhere,
request `/foo.html`. -/
theorem exact_match_precedence_witness :
    resolve ⟨TrailingSlash.unspecified, false⟩ (fun _ => some 0)
      "/foo.html".data "/foo.html".data
      = Decision.serveFile (normPath "/foo.html".data) 0 :=
  exact_match_precedence ⟨TrailingSlash.unspecified, false⟩ (fun _ => some 0)
    "/foo.html".data "/foo.html".data 0 rfl (by decide)

/-- C3: Step-1 clean-URL redirect — if content exists at the normalized
path, `cleanUrls` is enabled, and the slash-collapsed original path ends in
`.html`, the decision is a single `Redirect` to the original path with the
trailing `.html` stripped, then a trailing `/index` stripped if present,
then a trailing slash appended exactly when `trailingSlash` is
`ForcePresent`, followed by the original search string, an empty result
normalized to `/`. -/
theorem step1_clean_url_redirect {δ : Type} (cfg : Config) (ex : Str → Option δ)
    (u ou : Str) (d : δ)
    (h1 : ex (normPath u) = some d)
    (hcu : cfg.cleanUrls = true)
    (hh : endsWith (normPath ou) htmlExt = true) :
    resolve cfg ex u ou
      = Decision.redirect (step1RedirectTarget cfg (normPath ou) (searchOf u)) := by
  unfold resolve resolveT resolveCore step1RedirectTarget
  rw [h1]
  simp only [if_pos (And.intro hcu hh)]

/-- Witness for C3 at a concrete input: `cleanUrls = true`,
`trailingSlash = Unspecified`, content at `/foo/index.html` (queried path),
request `/foo/index.html` redirects to `/foo`. -/
theorem step1_clean_url_redirect_witness :
    resolve ⟨TrailingSlash.unspecified, true⟩ (fun _ => some 0)
      "/foo/index.html".data "/foo/index.html".data
      = Decision.redirect "/foo".data := by
  have h := step1_clean_url_redirect ⟨TrailingSlash.unspecified, true⟩
    (fun _ => some 0) "/foo/index.html".data "/foo/index.html".data 0 rfl rfl
    (by decide)
  rw [h]
  decide

/-- C4: Step-2 directory-index dispatch — when no content exists at the
normalized path but content exists at the normalized path joined with
`/index.html`, the decision is: `Redirect(originalPath + "/" + search)` if
`trailingSlash` is `Unspecified`, the original path lacks a trailing slash,
and `cleanUrls` is disabled; `Redirect(removeTrailingSlash(originalPath) +
search)` (empty result normalized to `/`) if `trailingSlash` is
`ForceAbsent`, the original path has a trailing slash, and the path is not
the root `/`; `Redirect(originalPath + "/" + search)` if `trailingSlash` is
`ForcePresent` and the original path lacks a trailing slash; and otherwise
`ServeFile` of the directory index. -/
theorem step2_directory_index_dispatch {δ : Type} (cfg : Config)
    (ex : Str → Option δ) (u ou : Str) (d : δ)
    (h1 : ex (normPath u) = none)
    (h2 : ex (asDirectoryIndex (addTrailingSlash (normPath u))) = some d) :
    (cfg.trailingSlash = TrailingSlash.unspecified →
      hasTrailingSlash (normPath ou) = false → cfg.cleanUrls = false →
      resolve cfg ex u ou = Decision.redirect (normPath ou ++ ['/'] ++ searchOf u))
    ∧ (cfg.trailingSlash = TrailingSlash.forceAbsent →
      hasTrailingSlash (normPath ou) = true → normPath u ≠ slashStr →
      resolve cfg ex u ou = Decision.redirect
        (normalizeRedirectPath (removeTrailingSlash (normPath ou) ++ searchOf u)))
    ∧ (cfg.trailingSlash = TrailingSlash.forcePresent →
      hasTrailingSlash (normPath ou) = false →
      resolve cfg ex u ou = Decision.redirect (normPath ou ++ ['/'] ++ searchOf u))
    ∧ (¬(cfg.trailingSlash = TrailingSlash.unspecified
          ∧ hasTrailingSlash (normPath ou) = false ∧ cfg.cleanUrls = false) →
      ¬(cfg.trailingSlash = TrailingSlash.forceAbsent
          ∧ hasTrailingSlash (normPath ou) = true ∧ normPath u ≠ slashStr) →
      ¬(cfg.trailingSlash = TrailingSlash.forcePresent
          ∧ hasTrailingSlash (normPath ou) = false) →
      resolve cfg ex u ou
        = Decision.serveFile (asDirectoryIndex (addTrailingSlash (normPath u))) d) := by
  refine ⟨?_, ?_, ?_, ?_⟩
  · intro hts hsl hcu
    simp only [resolve, resolveT, resolveCore, h1, h2]
    rw [if_pos ⟨hts, hsl, hcu⟩, addTrailingSlash_of_false hsl, List.append_assoc]
  · intro hts hsl hroot
    simp only [resolve, resolveT, resolveCore, h1, h2]
    rw [if_neg (by rintro ⟨c1, -, -⟩; rw [hts] at c1; cases c1),
      if_pos ⟨hts, hsl, hroot⟩]
  · intro hts hsl
    simp only [resolve, resolveT, resolveCore, h1, h2]
    rw [if_neg (by rintro ⟨c1, -, -⟩; rw [hts] at c1; cases c1),
      if_neg (by rintro ⟨c1, -, -⟩; rw [hts] at c1; cases c1),
      if_pos ⟨hts, hsl⟩, addTrailingSlash_of_false hsl, List.append_assoc]
  · intro hc1 hc2 hc3
    simp only [resolve, resolveT, resolveCore, h1, h2]
    rw [if_neg hc1, if_neg hc2, if_neg hc3]

/-- Witness for C4 at a concrete input: `trailingSlash = ForcePresent`,
content at `/foo/index.html` only, request `/foo` redirects to `/foo/`. -/
theorem step2_directory_index_dispatch_witness :
    resolve ⟨TrailingSlash.forcePresent, false⟩
      (fun q => if q = "/foo/index.html".data then some 0 else none)
      "/foo".data "/foo".data
      = Decision.redirect (normPath "/foo".data ++ ['/'] ++ searchOf "/foo".data) :=
  (step2_directory_index_dispatch ⟨TrailingSlash.forcePresent, false⟩
    (fun q => if q = "/foo/index.html".data then some 0 else none)
    "/foo".data "/foo".data 0 (by decide) (by decide)).2.2.1 rfl (by decide)

/-- C5: Step-3 clean-URL dispatch — when neither the exact path nor its
directory index exists, `cleanUrls` is enabled, a candidate is formed (the
original path does not combine a trailing slash with the `Unspecified`
policy), and the candidate (the path, minus its trailing slash when one is
present and `trailingSlash` is not `Unspecified`, plus `.html`) is found,
the decision is: `Redirect(removeTrailingSlash(originalPath) + search)`
(normalized) if `trailingSlash` is `ForceAbsent` and the original path had
a trailing slash; else `Redirect` of the candidate's original-path
counterpart with `.html` and any trailing `/index` stripped and a trailing
slash appended, plus search, if `trailingSlash` is `ForcePresent` and the
original path lacked one; else, if the counterpart ends in `/index.html`,
`Redirect` of the counterpart minus `/index.html` plus search, normalizing
empty to `/`; else `ServeFile(candidate, descriptor)`. -/
theorem step3_clean_url_dispatch {δ : Type} (cfg : Config)
    (ex : Str → Option δ) (u ou : Str) (d : δ)
    (h1 : ex (normPath u) = none)
    (h2 : ex (asDirectoryIndex (addTrailingSlash (normPath u))) = none)
    (hcu : cfg.cleanUrls = true)
    (_hcase : ¬(hasTrailingSlash (normPath ou) = true
      ∧ cfg.trailingSlash = TrailingSlash.unspecified))
    (h3 : ex (cleanUrlCandidateOf cfg (normPath u) (normPath ou)) = some d) :
    (cfg.trailingSlash = TrailingSlash.forceAbsent →
      hasTrailingSlash (normPath ou) = true →
      resolve cfg ex u ou = Decision.redirect
        (normalizeRedirectPath (removeTrailingSlash (normPath ou) ++ searchOf u)))
    ∧ (cfg.trailingSlash = TrailingSlash.forcePresent →
      hasTrailingSlash (normPath ou) = false →
      resolve cfg ex u ou = Decision.redirect
        (addTrailingSlash (removeTrailingString
          (removeTrailingString (cleanUrlCandidateOf cfg (normPath ou) (normPath ou))
            htmlExt) slashIndexStr) ++ searchOf u))
    ∧ (¬(cfg.trailingSlash = TrailingSlash.forceAbsent
          ∧ hasTrailingSlash (normPath ou) = true) →
      ¬(cfg.trailingSlash = TrailingSlash.forcePresent
          ∧ hasTrailingSlash (normPath ou) = false) →
      endsWith (cleanUrlCandidateOf cfg (normPath ou) (normPath ou))
          slashIndexHtmlStr = true →
      resolve cfg ex u ou = Decision.redirect
        (normalizeRedirectPath (removeTrailingString
          (cleanUrlCandidateOf cfg (normPath ou) (normPath ou)) slashIndexHtmlStr
          ++ searchOf u)))
    ∧ (¬(cfg.trailingSlash = TrailingSlash.forceAbsent
          ∧ hasTrailingSlash (normPath ou) = true) →
      ¬(cfg.trailingSlash = TrailingSlash.forcePresent
          ∧ hasTrailingSlash (normPath ou) = false) →
      endsWith (cleanUrlCandidateOf cfg (normPath ou) (normPath ou))
          slashIndexHtmlStr = false →
      resolve cfg ex u ou
        = Decision.serveFile (cleanUrlCandidateOf cfg (normPath u) (normPath ou)) d) := by
  refine ⟨?_, ?_, ?_, ?_⟩
  · intro hts hsl
    simp only [resolve, resolveT, resolveCore, h1, h2, if_pos hcu, h3]
    rw [if_pos ⟨hts, hsl⟩]
  · intro hts hsl
    simp only [resolve, resolveT, resolveCore, h1, h2, if_pos hcu, h3]
    rw [if_neg (by rintro ⟨c1, -⟩; rw [hts] at c1; cases c1), if_pos ⟨hts, hsl⟩]
  · intro hc1 hc2 hidx
    simp only [resolve, resolveT, resolveCore, h1, h2, if_pos hcu, h3]
    rw [if_neg hc1, if_neg hc2, if_pos hidx]
  · intro hc1 hc2 hidx
    simp only [resolve, resolveT, resolveCore, h1, h2, if_pos hcu, h3]
    rw [if_neg hc1, if_neg hc2, if_neg (by simp [hidx])]

/-- Witness for C5 at a concrete input: `cleanUrls = true`,
`trailingSlash = Unspecified`, content at `/foo/bar.html` only, request
`/foo/bar` is served the candidate `/foo/bar.html`. -/
theorem step3_clean_url_dispatch_witness :
    resolve ⟨TrailingSlash.unspecified, true⟩
      (fun q => if q = "/foo/bar.html".data then some 0 else none)
      "/foo/bar".data "/foo/bar".data
      = Decision.serveFile
          (cleanUrlCandidateOf ⟨TrailingSlash.unspecified, true⟩
            (normPath "/foo/bar".data) (normPath "/foo/bar".data)) 0 :=
  (step3_clean_url_dispatch ⟨TrailingSlash.unspecified, true⟩
    (fun q => if q = "/foo/bar.html".data then some 0 else none)
    "/foo/bar".data "/foo/bar".data 0 (by decide) (by decide) rfl (by decide)
    (by decide)).2.2.2 (by decide) (by decide) (by decide)

/-- C6: No-candidate fall-through — when `cleanUrls` is enabled, the
original path has a trailing slash, `trailingSlash` is `Unspecified`, and
neither the exact normalized path nor its directory index exists, the
`.html` sibling (the path minus its trailing slash plus `.html`) is never
queried and the decision is `Defer`, even if that sibling exists (the
existence function is arbitrary). -/
theorem no_candidate_fall_through {δ : Type} (cfg : Config)
    (ex : Str → Option δ) (u : Str)
    (hcu : cfg.cleanUrls = true)
    (hts : cfg.trailingSlash = TrailingSlash.unspecified)
    (hsl : hasTrailingSlash (normPath u) = true)
    (h1 : ex (normPath u) = none)
    (h2 : ex (asDirectoryIndex (addTrailingSlash (normPath u))) = none) :
    (resolveT cfg ex u u).1 = Decision.defer
    ∧ (removeTrailingSlash (normPath u) ++ htmlExt) ∉ (resolveT cfg ex u u).2 := by
  have hcand : cleanUrlCandidateOf cfg (normPath u) (normPath u) = normPath u := by
    rw [cleanUrlCandidateOf, if_pos hsl, if_neg (by simp [hts])]
  obtain ⟨q, hq, -⟩ := normed_decomp_trailing (normed_normPath u) hsl
  have hlen : (removeTrailingSlash (normPath u)).length + 1 = (normPath u).length := by
    rw [← hq, removeTrailingSlash_append_slash]
    simp
  constructor
  · simp only [resolveT, resolveCore, h1, h2, if_pos hcu, hcand, h1]
  · simp only [resolveT, resolveCore, h1, h2, if_pos hcu, hcand, h1]
    intro hmem
    have hd : asDirectoryIndex (addTrailingSlash (normPath u))
        = normPath u ++ indexHtmlStr := by
      rw [addTrailingSlash_of_true hsl, asDirectoryIndex, addTrailingSlash_of_true hsl]
    simp only [hd, List.mem_cons, List.not_mem_nil, or_false] at hmem
    rcases hmem with hmem | hmem | hmem
    · have := congrArg List.length hmem
      simp [htmlExt] at this
      omega
    · have := congrArg List.length hmem
      simp [htmlExt, indexHtmlStr] at this
      omega
    · have := congrArg List.length hmem
      simp [htmlExt] at this
      omega

/-- Witness for C6 at a concrete input: request `/bar/` with a `.html`
sibling `/bar.html` present — decision is `Defer` and `/bar.html` is never
queried. -/
theorem no_candidate_fall_through_witness :
    (resolveT ⟨TrailingSlash.unspecified, true⟩
      (fun q => if q = "/bar.html".data then some 0 else none)
      "/bar/".data "/bar/".data).1 = Decision.defer
    ∧ (removeTrailingSlash (normPath "/bar/".data) ++ htmlExt)
        ∉ (resolveT ⟨TrailingSlash.unspecified, true⟩
          (fun q => if q = "/bar.html".data then some 0 else none)
          "/bar/".data "/bar/".data).2 :=
  no_candidate_fall_through ⟨TrailingSlash.unspecified, true⟩
    (fun q => if q = "/bar.html".data then some 0 else none)
    "/bar/".data rfl rfl (by decide) (by decide) (by decide)

theorem normPath_collapse_fix (w : Str) :
    normPath (normPath w ++ searchOf w) = normPath w := by
  rw [normPath, pathnameOf_append (fun _ hc => mem_normPath_ne_qmark hc) (searchOf_shape w),
    normalizeMultiSlashes, collapseSlashes_eq_self (normed_normPath w)]

theorem searchOf_collapse_fix (w : Str) :
    searchOf (normPath w ++ searchOf w) = searchOf w :=
  searchOf_append (fun _ hc => mem_normPath_ne_qmark hc) (searchOf_shape w)

/-- C9: Multi-slash invariance — resolving a request target yields the same
decision as resolving the target with every run of two or more consecutive
slashes in its path portion collapsed to a single slash (so `/foo////`
behaves as `/foo/`); emitted redirect locations are likewise built from the
collapsed path. -/
theorem multi_slash_invariance {δ : Type} (cfg : Config) (ex : Str → Option δ)
    (u ou : Str) :
    resolve cfg ex u ou
      = resolve cfg ex (normPath u ++ searchOf u) (normPath ou ++ searchOf ou) := by
  unfold resolve resolveT
  rw [normPath_collapse_fix u, searchOf_collapse_fix u, normPath_collapse_fix ou]

/-- C10: Existence-query trace bound — every resolution queries the
existence function at least once and at most three times, in the fixed
order: the normalized path; then, only if the first call found nothing, the
normalized path joined with `/index.html`; then, only if the second also
found nothing and `cleanUrls` is enabled, the clean-URL candidate path.
With `cleanUrls` disabled at most two calls are made. -/
theorem existence_query_trace {δ : Type} (cfg : Config) (ex : Str → Option δ)
    (u ou : Str) :
    (1 ≤ (resolveT cfg ex u ou).2.length ∧ (resolveT cfg ex u ou).2.length ≤ 3)
    ∧ (cfg.cleanUrls = false → (resolveT cfg ex u ou).2.length ≤ 2)
    ∧ ((resolveT cfg ex u ou).2 = [normPath u]
      ∨ ((resolveT cfg ex u ou).2
            = [normPath u, asDirectoryIndex (addTrailingSlash (normPath u))]
          ∧ ex (normPath u) = none)
      ∨ ((resolveT cfg ex u ou).2
            = [normPath u, asDirectoryIndex (addTrailingSlash (normPath u)),
               cleanUrlCandidateOf cfg (normPath u) (normPath ou)]
          ∧ ex (normPath u) = none
          ∧ ex (asDirectoryIndex (addTrailingSlash (normPath u))) = none
          ∧ cfg.cleanUrls = true)) := by
  rcases hnp : ex (normPath u) with _ | d
  · rcases hdi : ex (asDirectoryIndex (addTrailingSlash (normPath u))) with _ | d2
    · cases hcu : cfg.cleanUrls
      · have htr : (resolveT cfg ex u ou).2
            = [normPath u, asDirectoryIndex (addTrailingSlash (normPath u))] := by
          simp only [resolveT, resolveCore, hnp, hdi, hcu]
          rw [if_neg (by simp)]
        rw [htr]
        exact ⟨⟨by simp, by simp⟩, fun _ => by simp, Or.inr (Or.inl ⟨rfl, rfl⟩)⟩
      · have htr : (resolveT cfg ex u ou).2
            = [normPath u, asDirectoryIndex (addTrailingSlash (normPath u)),
               cleanUrlCandidateOf cfg (normPath u) (normPath ou)] := by
          simp only [resolveT, resolveCore, hnp, hdi, if_pos hcu]
          rcases hc : ex (cleanUrlCandidateOf cfg (normPath u) (normPath ou)) with _ | d3
          · rfl
          · split_ifs <;> rfl
        rw [htr]
        exact ⟨⟨by simp, by simp⟩, fun hh => by simp at hh,
          Or.inr (Or.inr ⟨rfl, rfl, rfl, rfl⟩)⟩
    · have htr : (resolveT cfg ex u ou).2
          = [normPath u, asDirectoryIndex (addTrailingSlash (normPath u))] := by
        simp only [resolveT, resolveCore, hnp, hdi]
        split_ifs <;> rfl
      rw [htr]
      exact ⟨⟨by simp, by simp⟩, fun _ => by simp, Or.inr (Or.inl ⟨rfl, rfl⟩)⟩
  · have htr : (resolveT cfg ex u ou).2 = [normPath u] := by
      simp only [resolveT, resolveCore, hnp]
      split_ifs <;> rfl
    rw [htr]
    exact ⟨⟨by simp, by simp⟩, fun _ => by simp, Or.inl rfl⟩

/-- Witness for C10 at a concrete input: with `cleanUrls` disabled at most
two provider calls are made. -/
theorem existence_query_trace_witness :
    (resolveT ⟨TrailingSlash.unspecified, false⟩ (fun _ => (none : Option Nat))
      "/x".data "/x".data).2.length ≤ 2 :=
  (existence_query_trace ⟨TrailingSlash.unspecified, false⟩
    (fun _ => (none : Option Nat)) "/x".data "/x".data).2.1 rfl

/-- C8: Totality and error atomicity — if every existence call succeeds,
resolution produces exactly one `Decision` (the embedded engine returns a
single value of the three-variant `Decision` type); if resolution fails, it
propagates a single provider error unchanged: the reported error is exactly
the value returned by the existence function at one of the queried paths,
never reinterpreted as "not found", and no decision is produced. -/
theorem totality_and_error_atomicity {δ ε : Type} (cfg : Config)
    (ex : Str → Except ε (Option δ)) (u ou : Str) :
    ((∀ q, ∃ v, ex q = Except.ok v) →
      ∃ dec, resolveE cfg ex u ou = Except.ok dec)
    ∧ (∀ e, resolveE cfg ex u ou = Except.error e → ∃ q, ex q = Except.error e) := by
  constructor
  · intro h
    obtain ⟨v1, hv1⟩ := h (normPath u)
    rcases v1 with _ | d
    · obtain ⟨v2, hv2⟩ := h (asDirectoryIndex (addTrailingSlash (normPath u)))
      rcases v2 with _ | d2
      · cases hcu : cfg.cleanUrls
        · exact ⟨Decision.defer, by
            simp only [resolveE, resolveCoreE, hv1, hv2]
            rw [if_neg (by simp [hcu])]⟩
        · obtain ⟨v3, hv3⟩ := h (cleanUrlCandidateOf cfg (normPath u) (normPath ou))
          rcases v3 with _ | d3
          · exact ⟨Decision.defer, by
              simp only [resolveE, resolveCoreE, hv1, hv2, if_pos hcu, hv3]⟩
          · simp only [resolveE, resolveCoreE, hv1, hv2, if_pos hcu, hv3]
            split_ifs <;> exact ⟨_, rfl⟩
      · simp only [resolveE, resolveCoreE, hv1, hv2]
        split_ifs <;> exact ⟨_, rfl⟩
    · simp only [resolveE, resolveCoreE, hv1]
      split_ifs <;> exact ⟨_, rfl⟩
  · intro e he
    rcases hv1 : ex (normPath u) with e1 | v1
    · simp only [resolveE, resolveCoreE, hv1] at he
      injection he with hh
      exact ⟨normPath u, by rw [hv1, hh]⟩
    · rcases v1 with _ | d
      · rcases hv2 : ex (asDirectoryIndex (addTrailingSlash (normPath u))) with e2 | v2
        · simp only [resolveE, resolveCoreE, hv1, hv2] at he
          injection he with hh
          exact ⟨asDirectoryIndex (addTrailingSlash (normPath u)), by rw [hv2, hh]⟩
        · rcases v2 with _ | d2
          · cases hcu : cfg.cleanUrls
            · simp only [resolveE, resolveCoreE, hv1, hv2] at he
              rw [if_neg (by simp [hcu])] at he
              exact Except.noConfusion he
            · rcases hv3 : ex (cleanUrlCandidateOf cfg (normPath u) (normPath ou))
                with e3 | v3
              · simp only [resolveE, resolveCoreE, hv1, hv2, if_pos hcu, hv3] at he
                injection he with hh
                exact ⟨cleanUrlCandidateOf cfg (normPath u) (normPath ou),
                  by rw [hv3, hh]⟩
              · rcases v3 with _ | d3
                · simp only [resolveE, resolveCoreE, hv1, hv2, if_pos hcu, hv3] at he
                  exact Except.noConfusion he
                · simp only [resolveE, resolveCoreE, hv1, hv2, if_pos hcu, hv3] at he
                  split_ifs at he
          · simp only [resolveE, resolveCoreE, hv1, hv2] at he
            split_ifs at he
      · simp only [resolveE, resolveCoreE, hv1] at he
        split_ifs at he

/-! ### Question-mark freedom of redirect locations -/

theorem mem_removeTrailingString {c : Char} {s r : Str}
    (h : c ∈ removeTrailingString s r) : c ∈ s := by
  rw [removeTrailingString] at h
  split at h
  · exact List.take_subset _ _ h
  · exact h

theorem mem_addTrailingSlash {c : Char} {s : Str}
    (h : c ∈ addTrailingSlash s) : c ∈ s ∨ c = '/' := by
  by_cases hs : hasTrailingSlash s = true
  · rw [addTrailingSlash_of_true hs] at h
    exact Or.inl h
  · rw [addTrailingSlash_of_false (by simpa using hs)] at h
    rcases List.mem_append.1 h with h' | h'
    · exact Or.inl h'
    · simp at h'
      exact Or.inr h'

theorem mem_cleanUrlCandidateOf {c : Char} {cfg : Config} {p op : Str}
    (h : c ∈ cleanUrlCandidateOf cfg p op) : c ∈ p ∨ c ∈ htmlExt := by
  rw [cleanUrlCandidateOf] at h
  split at h
  · split at h
    · rcases List.mem_append.1 h with h' | h'
      · exact Or.inl (mem_removeTrailingString h')
      · exact Or.inr h'
    · exact Or.inl h
  · rcases List.mem_append.1 h with h' | h'
    · exact Or.inl h'
    · exact Or.inr h'

theorem htmlExt_ne_qmark : ∀ c ∈ htmlExt, c ≠ '?' := by decide

/-- Invariants of a redirect location of the form
`normalizeRedirectPath (X ++ s)`. -/
theorem redirect_invariants_norm {X s : Str} (hX : ∀ c ∈ X, c ≠ '?') :
    normalizeRedirectPath (X ++ s) ≠ []
    ∧ s <:+ normalizeRedirectPath (X ++ s)
    ∧ (s = [] → pathnameOf (normalizeRedirectPath (X ++ s)) ≠ []) := by
  rw [normalizeRedirectPath]
  split
  · next h0 =>
    have hs : s = [] := (List.append_eq_nil.1 h0).2
    refine ⟨by simp [slashStr], ?_, ?_⟩
    · rw [hs]
      exact ⟨slashStr, List.append_nil _⟩
    · intro _
      simp [pathnameOf, slashStr]
  · next h0 =>
    refine ⟨h0, ⟨X, rfl⟩, ?_⟩
    intro hs
    rw [hs, List.append_nil] at h0 ⊢
    rw [pathnameOf_eq_self hX]
    exact h0

/-- Invariants of a redirect location of the form `addTrailingSlash Y ++ s`. -/
theorem redirect_invariants_slash {Y s : Str} (hY : ∀ c ∈ Y, c ≠ '?') :
    addTrailingSlash Y ++ s ≠ []
    ∧ s <:+ addTrailingSlash Y ++ s
    ∧ (s = [] → pathnameOf (addTrailingSlash Y ++ s) ≠ []) := by
  refine ⟨fun h => addTrailingSlash_ne_nil Y (List.append_eq_nil.1 h).1,
    ⟨addTrailingSlash Y, rfl⟩, ?_⟩
  intro hs
  rw [hs, List.append_nil]
  have hY' : ∀ c ∈ addTrailingSlash Y, c ≠ '?' := by
    intro c hc
    rcases mem_addTrailingSlash hc with h' | h'
    · exact hY c h'
    · rw [h']
      decide
  rw [pathnameOf_eq_self hY']
  exact addTrailingSlash_ne_nil Y

theorem noQ_removeTrailingString {s r : Str} (h : ∀ c ∈ s, c ≠ '?') :
    ∀ c ∈ removeTrailingString s r, c ≠ '?' :=
  fun c hc => h c (mem_removeTrailingString hc)

theorem noQ_addTrailingSlash {s : Str} (h : ∀ c ∈ s, c ≠ '?') :
    ∀ c ∈ addTrailingSlash s, c ≠ '?' :=
  fun c hc => (mem_addTrailingSlash hc).elim (h c) (fun he => by rw [he]; decide)

theorem noQ_cleanUrlCandidateOf {cfg : Config} {p op : Str}
    (hp : ∀ c ∈ p, c ≠ '?') :
    ∀ c ∈ cleanUrlCandidateOf cfg p op, c ≠ '?' :=
  fun c hc => (mem_cleanUrlCandidateOf hc).elim (hp c) (htmlExt_ne_qmark c)

/-- C7 (amended): every emitted `Redirect` location is non-empty, ends with
the original search string, and — when the search string is empty — has a
non-empty path portion.  (The unamended claim that the path portion is
never empty fails when a non-empty search accompanies an empty computed
path, because `normalizeRedirectPath` is applied to path-plus-search: see
the counterexample.) -/
theorem redirect_location_invariants {δ : Type} (cfg : Config)
    (ex : Str → Option δ) (u ou L : Str)
    (h : resolve cfg ex u ou = Decision.redirect L) :
    L ≠ [] ∧ searchOf u <:+ L ∧ (searchOf u = [] → pathnameOf L ≠ []) := by
  have nqop : ∀ c ∈ normPath ou, c ≠ '?' := fun _ hc => mem_normPath_ne_qmark hc
  rcases hnp : ex (normPath u) with _ | d
  · rcases hdi : ex (asDirectoryIndex (addTrailingSlash (normPath u))) with _ | d2
    · cases hcu : cfg.cleanUrls
      · simp only [resolve, resolveT, resolveCore, hnp, hdi] at h
        rw [if_neg (by simp [hcu])] at h
        exact Decision.noConfusion h
      · rcases hc : ex (cleanUrlCandidateOf cfg (normPath u) (normPath ou)) with _ | d3
        · simp only [resolve, resolveT, resolveCore, hnp, hdi, if_pos hcu, hc] at h
          exact Decision.noConfusion h
        · simp only [resolve, resolveT, resolveCore, hnp, hdi, if_pos hcu, hc] at h
          split_ifs at h
          · injection h with h'
            subst h'
            exact redirect_invariants_norm (noQ_removeTrailingString nqop)
          · injection h with h'
            subst h'
            exact redirect_invariants_slash
              (noQ_removeTrailingString (noQ_removeTrailingString
                (noQ_cleanUrlCandidateOf nqop)))
          · injection h with h'
            subst h'
            exact redirect_invariants_norm
              (noQ_removeTrailingString (noQ_cleanUrlCandidateOf nqop))
    · simp only [resolve, resolveT, resolveCore, hnp, hdi] at h
      split_ifs at h
      · injection h with h'
        subst h'
        exact redirect_invariants_slash nqop
      · injection h with h'
        subst h'
        exact redirect_invariants_norm (noQ_removeTrailingString nqop)
      · injection h with h'
        subst h'
        exact redirect_invariants_slash nqop
  · simp only [resolve, resolveT, resolveCore, hnp] at h
    split_ifs at h
    · injection h with h'
      subst h'
      exact redirect_invariants_norm
        (noQ_addTrailingSlash (noQ_removeTrailingString (noQ_removeTrailingString nqop)))
    · injection h with h'
      subst h'
      exact redirect_invariants_norm
        (noQ_addTrailingSlash (noQ_removeTrailingString nqop))
    · injection h with h'
      subst h'
      exact redirect_invariants_norm
        (noQ_removeTrailingString (noQ_removeTrailingString nqop))
    · injection h with h'
      subst h'
      exact redirect_invariants_norm (noQ_removeTrailingString nqop)

/-- Witness for the amended C7 at a concrete input: the directory-index
redirect for `/foo?q=1` has location `/foo/?q=1` — non-empty, ending in
the search string. -/
theorem redirect_location_invariants_witness :
    "/foo/?q=1".data ≠ ([] : Str)
    ∧ searchOf "/foo?q=1".data <:+ "/foo/?q=1".data
    ∧ (searchOf "/foo?q=1".data = [] → pathnameOf "/foo/?q=1".data ≠ []) :=
  redirect_location_invariants ⟨TrailingSlash.unspecified, false⟩
    (fun q => if q = "/foo/index.html".data then some 0 else none)
    "/foo?q=1".data "/foo?q=1".data "/foo/?q=1".data (by decide)

/-- C7 counterexample: with `cleanUrls = true`, content at `/index.html`,
and request `/index.html?a`, the emitted redirect location is `?a`, whose
path portion is empty — normalization to `/` applies to the concatenation
of the computed path and the search string, not to the path alone, so the
location's path portion can be empty. -/
theorem empty_path_portion_counterexample :
    resolve ⟨TrailingSlash.unspecified, true⟩
      (fun q => if q = "/index.html".data then some 0 else none)
      "/index.html?a".data "/index.html?a".data
      = Decision.redirect "?a".data
    ∧ pathnameOf "?a".data = [] :=
  ⟨by decide, by decide⟩

/-- Re-resolving a slash-terminated target `p ++ "/"` whose directory index
is known to exist cannot redirect when `cleanUrls` is off and the policy is
not `ForceAbsent`. -/
theorem slash_target_no_redirect {δ : Type} (cfg : Config)
    (ex : Str → Option δ) (p : Str) (d2 : δ)
    (hcu : cfg.cleanUrls = false)
    (hts : cfg.trailingSlash ≠ TrailingSlash.forceAbsent)
    (hnq : ∀ c ∈ p, c ≠ '?')
    (hn : Normed p)
    (hsl : hasTrailingSlash p = false)
    (hdi : ex (asDirectoryIndex (addTrailingSlash p)) = some d2) :
    ∀ M, resolve cfg ex (p ++ ['/']) (p ++ ['/']) ≠ Decision.redirect M := by
  intro M hM
  have hnq' : ∀ c ∈ p ++ ['/'], c ≠ '?' := by
    intro c hc
    rcases List.mem_append.1 hc with h' | h'
    · exact hnq c h'
    · simp at h'
      rw [h']
      decide
  have hn' : Normed (p ++ ['/']) := normed_append_slash hn hsl
  simp only [resolve, resolveT] at hM
  rw [normPath_of_no_qmark_normed hnq' hn', searchOf_eq_nil hnq'] at hM
  rcases hnp2 : ex (p ++ ['/']) with _ | d0
  · have hdieq : asDirectoryIndex (addTrailingSlash (p ++ ['/']))
        = asDirectoryIndex (addTrailingSlash p) := by
      rw [addTrailingSlash_of_true (hasTrailingSlash_append_slash p),
        addTrailingSlash_of_false hsl]
    simp only [resolveCore, hnp2, hdieq, hdi] at hM
    rw [if_neg (by
        rintro ⟨-, hx, -⟩
        rw [hasTrailingSlash_append_slash] at hx
        cases hx),
      if_neg (by rintro ⟨hx, -, -⟩; exact hts hx),
      if_neg (by
        rintro ⟨-, hx⟩
        rw [hasTrailingSlash_append_slash] at hx
        cases hx)] at hM
    exact Decision.noConfusion hM
  · simp only [resolveCore, hnp2] at hM
    rw [if_neg (by rintro ⟨hx, -⟩; rw [hcu] at hx; cases hx)] at hM
    exact Decision.noConfusion hM

/-- Re-resolving a slashless target `q` whose directory index is known to
exist cannot redirect when `cleanUrls` is off and the policy is
`ForceAbsent`. -/
theorem slashless_target_no_redirect {δ : Type} (cfg : Config)
    (ex : Str → Option δ) (q : Str) (d2 : δ)
    (hcu : cfg.cleanUrls = false)
    (hts : cfg.trailingSlash = TrailingSlash.forceAbsent)
    (hnq : ∀ c ∈ q, c ≠ '?')
    (hn : Normed q)
    (hsl : hasTrailingSlash q = false)
    (hdi : ex (asDirectoryIndex (addTrailingSlash q)) = some d2) :
    ∀ M, resolve cfg ex q q ≠ Decision.redirect M := by
  intro M hM
  simp only [resolve, resolveT] at hM
  rw [normPath_of_no_qmark_normed hnq hn, searchOf_eq_nil hnq] at hM
  rcases hnp2 : ex q with _ | d0
  · simp only [resolveCore, hnp2, hdi] at hM
    rw [if_neg (by rintro ⟨hx, -, -⟩; rw [hts] at hx; cases hx),
      if_neg (by rintro ⟨-, hx, -⟩; rw [hsl] at hx; cases hx),
      if_neg (by rintro ⟨hx, -⟩; rw [hts] at hx; cases hx)] at hM
    exact Decision.noConfusion hM
  · simp only [resolveCore, hnp2] at hM
    rw [if_neg (by rintro ⟨hx, -⟩; rw [hcu] at hx; cases hx)] at hM
    exact Decision.noConfusion hM

/-- C1 (amended): no redirect loops when `cleanUrls` is disabled — if
resolving a request path yields `Redirect(L)` under a configuration with
`cleanUrls = false`, re-resolving the path portion of `L` under the same
configuration and existence function never yields another `Redirect`.
(With `cleanUrls = true` double redirects and even a self-loop on `/`
exist: see the counterexample.) -/
theorem no_redirect_loop_of_cleanUrls_off {δ : Type} (cfg : Config)
    (ex : Str → Option δ) (u L : Str)
    (hcu : cfg.cleanUrls = false)
    (h : resolve cfg ex u u = Decision.redirect L) :
    ∀ M, resolve cfg ex (pathnameOf L) (pathnameOf L) ≠ Decision.redirect M := by
  have nqp : ∀ c ∈ normPath u, c ≠ '?' := fun _ hc => mem_normPath_ne_qmark hc
  rcases hnp : ex (normPath u) with _ | d
  · rcases hdi : ex (asDirectoryIndex (addTrailingSlash (normPath u))) with _ | d2
    · simp only [resolve, resolveT, resolveCore, hnp, hdi] at h
      rw [if_neg (by simp [hcu])] at h
      exact Decision.noConfusion h
    · simp only [resolve, resolveT, resolveCore, hnp, hdi] at h
      split_ifs at h with hc1 hc2 hc3
      · -- Unspecified, no trailing slash, cleanUrls off: target is p ++ "/"
        obtain ⟨hts, hsl, -⟩ := hc1
        injection h with h'
        rw [addTrailingSlash_of_false hsl] at h'
        subst h'
        have hnq' : ∀ c ∈ normPath u ++ ['/'], c ≠ '?' := by
          intro c hc
          rcases List.mem_append.1 hc with h' | h'
          · exact nqp c h'
          · simp at h'
            rw [h']
            decide
        rw [pathnameOf_append hnq' (searchOf_shape u)]
        exact slash_target_no_redirect cfg ex (normPath u) d2 hcu
          (fun hx => by rw [hts] at hx; cases hx) nqp (normed_normPath u) hsl hdi
      · -- ForceAbsent with trailing slash: target is p minus its slash
        obtain ⟨hts, hsl, hroot⟩ := hc2
        obtain ⟨q, hq, hqsl⟩ := normed_decomp_trailing (normed_normPath u) hsl
        have hqne : q ≠ [] := by
          rintro rfl
          exact hroot (by rw [← hq]; rfl)
        injection h with h'
        rw [← hq, removeTrailingSlash_append_slash] at h'
        rw [normalizeRedirectPath,
          if_neg (fun hx => hqne (List.append_eq_nil.1 hx).1)] at h'
        subst h'
        have nqq : ∀ c ∈ q, c ≠ '?' := fun c hc =>
          nqp c (by rw [← hq]; exact List.mem_append.2 (Or.inl hc))
        have hnq : Normed q :=
          normed_append_left (x := q) (y := ['/'])
            (by rw [hq]; exact normed_normPath u)
        have hdi' : ex (asDirectoryIndex (addTrailingSlash q)) = some d2 := by
          rw [asDirectoryIndex, addTrailingSlash_idem, addTrailingSlash_of_false hqsl]
          rw [addTrailingSlash_of_true hsl, asDirectoryIndex,
            addTrailingSlash_of_true hsl, ← hq] at hdi
          exact hdi
        rw [pathnameOf_append nqq (searchOf_shape u)]
        exact slashless_target_no_redirect cfg ex q d2 hcu hts nqq hnq hqsl hdi'
      · -- ForcePresent, no trailing slash: target is p ++ "/"
        obtain ⟨hts, hsl⟩ := hc3
        injection h with h'
        rw [addTrailingSlash_of_false hsl] at h'
        subst h'
        have hnq' : ∀ c ∈ normPath u ++ ['/'], c ≠ '?' := by
          intro c hc
          rcases List.mem_append.1 hc with h' | h'
          · exact nqp c h'
          · simp at h'
            rw [h']
            decide
        rw [pathnameOf_append hnq' (searchOf_shape u)]
        exact slash_target_no_redirect cfg ex (normPath u) d2 hcu
          (fun hx => by rw [hts] at hx; cases hx) nqp (normed_normPath u) hsl hdi
  · simp only [resolve, resolveT, resolveCore, hnp] at h
    rw [if_neg (by rintro ⟨hx, -⟩; rw [hcu] at hx; cases hx)] at h
    exact Decision.noConfusion h

/-- Witness for the amended C1 at a concrete input: the directory-index
redirect `/foo` ↦ `/foo/` under `cleanUrls = false`, whose target does not
redirect again. -/
theorem no_redirect_loop_of_cleanUrls_off_witness :
    resolve ⟨TrailingSlash.unspecified, false⟩
      (fun q => if q = "/foo/index.html".data then some 0 else none)
      (pathnameOf "/foo/".data) (pathnameOf "/foo/".data)
      ≠ Decision.redirect "/foo/".data :=
  no_redirect_loop_of_cleanUrls_off ⟨TrailingSlash.unspecified, false⟩
    (fun q => if q = "/foo/index.html".data then some 0 else none)
    "/foo".data "/foo/".data rfl (by decide) "/foo/".data

/-- C1 counterexample: with `trailingSlash = ForceAbsent`,
`cleanUrls = true`, and content at the path `.html`, resolving `/` emits
`Redirect("/")`, and re-resolving the path portion of that location — `/`
again — emits the very same `Redirect("/")`: an infinite redirect loop
(step 3 lacks the root guard that step 2 carries). -/
theorem no_redirect_loop_counterexample :
    resolve ⟨TrailingSlash.forceAbsent, true⟩
      (fun q => if q = ".html".data then some 0 else none)
      "/".data "/".data
      = Decision.redirect "/".data
    ∧ resolve ⟨TrailingSlash.forceAbsent, true⟩
      (fun q => if q = ".html".data then some 0 else none)
      (pathnameOf "/".data) (pathnameOf "/".data)
      = Decision.redirect "/".data :=
  ⟨by decide, by decide⟩

/-- Witness for C8 at a concrete input: with an all-succeeding provider a
decision is produced. -/
theorem totality_and_error_atomicity_witness :
    ∃ dec, resolveE ⟨TrailingSlash.unspecified, false⟩
      (fun _ => (Except.ok none : Except Unit (Option Nat)))
      "/x".data "/x".data = Except.ok dec :=
  (totality_and_error_atomicity ⟨TrailingSlash.unspecified, false⟩
    (fun _ => (Except.ok none : Except Unit (Option Nat)))
    "/x".data "/x".data).1 (fun _ => ⟨none, rfl⟩)

end Superstatic
